import Mathlib

/-!
# Verification of the coreview diff-addressing and streaming-reference core

Shallow embedding of the TypeScript sources `src/diff.ts`, `src/stream.ts`,
`src/render.ts` and the paged block builder of `src/cli.ts`, together with
proofs about the embedded definitions.

Text is modelled as `List Char` (`Str`).  JavaScript strings are sequences of
UTF-16 code units; for the properties considered here the code points of a
Lean string are a faithful model.  JavaScript `Map` (insertion ordered, unique
keys) is modelled as an association list with in-place update.
-/

namespace Coreview

abbrev Str := List Char

/-! ## Data model (`src/types.ts`) -/

/-- The `DiffLine.type` field in `types.ts`: `'context' | 'add' | 'delete'`. -/
inductive LineKind where
  | context
  | add
  | delete
  deriving DecidableEq, Repr

/-- One physical line of a hunk body (`DiffLine` in `types.ts`). -/
structure DiffLine where
  kind : LineKind
  content : Str
  deriving DecidableEq, Repr

/-- A hunk (`Hunk` in `types.ts`): 1-based `index`, raw header line, body. -/
structure Hunk where
  index : Nat
  header : Str
  lines : List DiffLine
  deriving DecidableEq, Repr

/-- The `DiffFile` record in `types.ts`. -/
structure DiffFile where
  path : Str
  hunks : List Hunk
  deriving DecidableEq, Repr

/-- The `ParsedDiff = Map<string, DiffFile>` type: insertion-ordered association list. -/
abbrev ParsedDiff := List (Str × DiffFile)

/-- The `LineRange` record in `types.ts` (fields `start`/`end`; `end` is a Lean keyword,
renamed `stop`). -/
structure LineRange where
  start : Nat
  stop : Nat
  deriving DecidableEq, Repr

/-- Reasons for a miss: the `reason` field of a `not_found` resolution. -/
inductive NotFoundReason where
  | file_not_in_diff
  | hunk_not_found
  deriving DecidableEq, Repr

/-- The `ResolvedReference` union in `types.ts`. -/
inductive ResolvedReference where
  | resolved (file : Str) (hunks : List Hunk) (lineRange : Option LineRange)
  | not_found (file : Str) (reason : NotFoundReason)
  | malformed (raw : Str)
  deriving DecidableEq, Repr

/-- The `StreamToken` union in `types.ts`: prose text or a raw reference with its
pre-extracted file path. -/
inductive StreamToken where
  | text (content : Str)
  | ref (content : Str) (file : Str)
  deriving DecidableEq, Repr

/-! ## String helpers shared by the embedded modules -/

/-- JavaScript `Map.set`: replace the value at an existing key in place,
otherwise append at the end. -/
def mapSet (m : ParsedDiff) (k : Str) (v : DiffFile) : ParsedDiff :=
  match m with
  | [] => [(k, v)]
  | (k', v') :: rest =>
      if k' = k then (k, v) :: rest else (k', v') :: mapSet rest k v

/-- JavaScript `Map.get` (as `Option`). -/
def mapGet (m : ParsedDiff) (k : Str) : Option DiffFile :=
  match m.find? (fun kv => decide (kv.1 = k)) with
  | some kv => some kv.2
  | none => none

/-- JavaScript `String.prototype.indexOf` for a pattern: index of the first occurrence,
`none` when there is none (JS returns `-1`). -/
def strIndexOf (pat : Str) : Str → Option Nat
  | [] => if pat = [] then some 0 else none
  | c :: rest =>
      if pat.isPrefixOf (c :: rest) then some 0
      else (strIndexOf pat rest).map (· + 1)

/-- JavaScript `String.prototype.split('\n')`. -/
def splitLines : Str → List Str
  | [] => [[]]
  | c :: rest =>
      if c = '\n' then [] :: splitLines rest
      else
        match splitLines rest with
        | h :: t => (c :: h) :: t
        | [] => [[c]]

/-- JavaScript `Array.prototype.join('\n')` over line parts. -/
def joinNl (parts : List Str) : Str :=
  List.intercalate ['\n'] parts

/-- Decimal rendering of a number, as JS template literals do for the
naturals appearing here. -/
def natStr (n : Nat) : Str := (Nat.repr n).toList

/-- Maximal leading run of decimal digits (the greedy `\d+`). -/
def takeDigits (s : Str) : Str := s.takeWhile (fun c => c.isDigit)

/-- Numeric value of a digit string (`parseInt(·, 10)`; exact, whereas JS
numbers lose precision beyond 2^53 — irrelevant for the claims here). -/
def digitsToNat (s : Str) : Nat :=
  s.foldl (fun acc c => acc * 10 + (c.toNat - '0'.toNat)) 0

/-! ## Stream tokenizer (`src/stream.ts`, `createStreamParser`)

The JS closure keeps two mutable variables, `buffer : string` and
`inRef : boolean`.  `push(chunk)` appends the chunk and runs a
`while (buffer.length > 0)` loop; each iteration first (when not inside a
candidate) searches for the opening delimiter `[[ref:` — no occurrence emits
everything but the last five characters as prose and exits the loop — and
then (when inside a candidate) searches for `]]`, emitting a reference token,
or abandons an over-long candidate, or exits the loop to wait for more input.

Every iteration that does not exit the loop strictly shrinks the buffer, so
the loop runs at most `buffer.length + 1` iterations; `pushLoop` makes that
bound an explicit fuel argument and `pushChunk` supplies it. -/

def REF_START : Str := "[[ref:".toList

def REF_END : Str := "]]".toList

def MAX_REF_LENGTH : Nat := 200

/-- The pre-extracted file path `refContent.split(':hunk:')[0]`: the text before the first occurrence of
`:hunk:`, or the whole string when it does not occur. -/
def refFile (content : Str) : Str :=
  match strIndexOf ":hunk:".toList content with
  | some k => content.take k
  | none => content

/-- The `if (inRef)` block of one loop iteration, acting on a buffer that
starts at the opening delimiter.  `recur` continues the loop (it is
instantiated with `pushLoop fuel`).  A found closing delimiter emits a
reference token (`refContent = buffer.slice(REF_START.length, refEnd)`) and
continues after it; an over-long candidate emits `[[ref:` as literal text
and continues after it; otherwise the loop exits, waiting for more input. -/
def refScan (recur : Str → Bool → List StreamToken × Str × Bool) (b1 : Str) :
    List StreamToken × Str × Bool :=
  match strIndexOf REF_END b1 with
  | some j =>
      let content := (b1.drop REF_START.length).take (j - REF_START.length)
      let out := recur (b1.drop (j + REF_END.length)) false
      (StreamToken.ref content (refFile content) :: out.1, out.2)
  | none =>
      if MAX_REF_LENGTH < b1.length then
        let out := recur (b1.drop REF_START.length) false
        (StreamToken.text REF_START :: out.1, out.2)
      else ([], b1, true)

/-- The `while` loop body of `push`, one constructor of fuel per iteration.
The inner sum encodes the control flow of one iteration: `Sum.inr` is a
`break` out of the loop with the final result, `Sum.inl (pre, b1)` falls
through to the `if (inRef)` block (`refScan`) with tokens `pre` already
emitted and the buffer advanced to `b1`. -/
def pushLoop : Nat → Str → Bool → List StreamToken × Str × Bool
  | 0, b, r => ([], b, r)
  | fuel + 1, b, r =>
      if b = [] then ([], b, r)
      else
        let p1 : (List StreamToken × Str) ⊕ (List StreamToken × Str × Bool) :=
          if r then Sum.inl ([], b)
          else
            match strIndexOf REF_START b with
            | none =>
                -- no ref start: emit all but the last `REF_START.length - 1`
                -- characters (they may begin a delimiter split across chunks)
                let safe := b.length - (REF_START.length - 1)
                if 0 < safe then Sum.inr ([.text (b.take safe)], b.drop safe, false)
                else Sum.inr ([], b, false)
            | some i =>
                Sum.inl (if 0 < i then [.text (b.take i)] else [], b.drop i)
        match p1 with
        | Sum.inr out => out
        | Sum.inl (pre, b1) =>
            let out := refScan (pushLoop fuel) b1
            (pre ++ out.1, out.2)

/-- Tokenizer state: the captured `buffer` and `inRef` variables. -/
structure ParserState where
  buffer : Str
  inRef : Bool
  deriving DecidableEq, Repr

def initState : ParserState := ⟨[], false⟩

/-- The `push(chunk)` call: append the chunk to the buffer, run the scan loop. -/
def pushChunk (st : ParserState) (chunk : Str) : List StreamToken × ParserState :=
  let b := st.buffer ++ chunk
  let out := pushLoop (b.length + 1) b st.inRef
  (out.1, ⟨out.2.1, out.2.2⟩)

/-- The `flush()` call: emit any residual buffered text as prose, reset the state. -/
def flushTokens (st : ParserState) : List StreamToken × ParserState :=
  (if st.buffer = [] then [] else [.text st.buffer], ⟨[], false⟩)

/-- Feed a sequence of chunks through successive `push` calls. -/
def runPush : List Str → ParserState → List StreamToken × ParserState
  | [], st => ([], st)
  | c :: cs, st =>
      let out := pushChunk st c
      let rest := runPush cs out.2
      (out.1 ++ rest.1, rest.2)

/-- The full tokenizer run: all `push` calls then exactly one `flush`. -/
def tokenizeAll (chunks : List Str) : List StreamToken :=
  let out := runPush chunks initState
  out.1 ++ (flushTokens out.2).1

/-- The text a consumer reconstitutes from a token: prose contents verbatim,
a reference as its bracketed literal form. -/
def tokenText : StreamToken → Str
  | .text c => c
  | .ref c _ => REF_START ++ c ++ REF_END

/-- Concatenation of the reconstituted contents of a token list. -/
def tokensText (ts : List StreamToken) : Str :=
  (ts.map tokenText).flatten

/-! ## Diff parser (`src/diff.ts`)

`parseDiff` splits the raw text on `'\n'` and folds a mutable state
(`result`, `currentFile`, `currentHunk`, `hunkIndex`) over the lines.

The file-header line is matched against the regex
`/diff --git a\/.+ b\/(.+)/` (searched at every position; `.` does not match
`'\n'`, `.+` is greedy, so the capture starts after the last viable
`" b/"`). -/

/-- Is position `j` of `r` a viable split for `.+ b\/(.+)`: at least one
(non-newline) character before, the literal `" b/"` at `j`, and at least one
non-newline character after. -/
def bSplitValid (r : Str) (j : Nat) : Bool :=
  decide (1 ≤ j) && decide ('\n' ∉ r.take j) && " b/".toList.isPrefixOf (r.drop j) &&
    (match r.drop (j + 3) with
     | c :: _ => decide (c ≠ '\n')
     | [] => false)

/-- The split chosen by the greedy `.+`: the last viable one. -/
def lastBSplit (r : Str) : Option Nat :=
  (List.range r.length).reverse.find? (bSplitValid r)

/-- Attempt the file-header regex at position `i` of the line; on success
return the capture group (the new path). -/
def diffGitAt (line : Str) (i : Nat) : Option Str :=
  if "diff --git a/".toList.isPrefixOf (line.drop i) then
    match lastBSplit (line.drop (i + 13)) with
    | some j => some (((line.drop (i + 13)).drop (j + 3)).takeWhile (fun c => c ≠ '\n'))
    | none => none
  else none

/-- The search `line.match(/diff --git a\/.+ b\/(.+)/)`: first position that matches. -/
def matchDiffGit (line : Str) : Option Str :=
  match (List.range (line.length + 1)).find? (fun i => (diffGitAt line i).isSome) with
  | some i => diffGitAt line i
  | none => none

/-- The parser's mutable variables. -/
structure ParseState where
  result : ParsedDiff
  currentFile : Option DiffFile
  currentHunk : Option Hunk
  hunkIndex : Nat
  deriving DecidableEq, Repr

def parseInit : ParseState := ⟨[], none, none, 0⟩

/-- One iteration of the `for (const line of lines)` loop of `parseDiff`. -/
def parseStep (st : ParseState) (line : Str) : ParseState :=
  if "diff --git ".toList.isPrefixOf line then
    -- new file header; note: a pending `currentHunk` is NOT appended first
    let result :=
      match st.currentFile with
      | some f => mapSet st.result f.path f
      | none => st.result
    { result := result
      currentFile := some ⟨(matchDiffGit line).getD "unknown".toList, []⟩
      currentHunk := none
      hunkIndex := 0 }
  else if "@@".toList.isPrefixOf line ∧ st.currentFile.isSome then
    match st.currentFile with
    | some cf =>
        let cf :=
          match st.currentHunk with
          | some h => { cf with hunks := cf.hunks ++ [h] }
          | none => cf
        { st with
          currentFile := some cf
          currentHunk := some ⟨st.hunkIndex + 1, line, []⟩
          hunkIndex := st.hunkIndex + 1 }
    | none => st
  else
    match st.currentHunk with
    | none => st
    | some h =>
        if "+".toList.isPrefixOf line ∧ ¬ "+++".toList.isPrefixOf line then
          { st with currentHunk := some { h with lines := h.lines ++ [⟨.add, line.drop 1⟩] } }
        else if "-".toList.isPrefixOf line ∧ ¬ "---".toList.isPrefixOf line then
          { st with currentHunk := some { h with lines := h.lines ++ [⟨.delete, line.drop 1⟩] } }
        else if " ".toList.isPrefixOf line ∨ line = [] then
          { st with currentHunk := some { h with lines := h.lines ++ [⟨.context, line.drop 1⟩] } }
        else st

/-- The final flush after the loop: push the pending hunk and file. -/
def parseFinish (st : ParseState) : ParsedDiff :=
  match st.currentFile with
  | none => st.result
  | some cf =>
      let cf :=
        match st.currentHunk with
        | some h => { cf with hunks := cf.hunks ++ [h] }
        | none => cf
      mapSet st.result cf.path cf

/-- The fold over an explicit line list. -/
def parseLines (ls : List Str) : ParseState :=
  ls.foldl parseStep parseInit

/-- The `parseDiff({raw})` function of `diff.ts`. -/
def parseDiff (raw : Str) : ParsedDiff :=
  parseFinish (parseLines (splitLines raw))

/-- The `+`/`-`/space prefix a `DiffLine` is re-serialized with. -/
def kindChar (k : LineKind) : Str :=
  match k with
  | .add => "+".toList
  | .delete => "-".toList
  | .context => " ".toList

/-- The parts array of `enrichDiff`: per file a banner part (with embedded
newline), then per hunk a `[hunk:N]`-marked header part, the prefixed body
lines and an empty part. -/
def enrichParts (d : ParsedDiff) : List Str :=
  (d.map (fun pf =>
    ("── ".toList ++ pf.1 ++ " ──\n".toList) ::
      (pf.2.hunks.map (fun h =>
        ("[hunk:".toList ++ natStr h.index ++ "] ".toList ++ h.header) ::
          (h.lines.map (fun l => kindChar l.kind ++ l.content) ++ [[]])) ).flatten)).flatten

/-- The `enrichDiff({diff})` function of `diff.ts`: `parts.join('\n')`. -/
def enrichDiff (d : ParsedDiff) : Str :=
  joinNl (enrichParts d)

/-- Strip an injected `[hunk:N] ` marker from the front of one line, if
present (the inverse of the annotation `enrichDiff` adds). -/
def stripMarkerLine (l : Str) : Str :=
  if "[hunk:".toList.isPrefixOf l then
    let rest := l.drop 6
    let ds := takeDigits rest
    if ds ≠ [] ∧ "] ".toList.isPrefixOf (rest.drop ds.length) then
      (rest.drop ds.length).drop 2
    else l
  else l

/-- Strip all injected `[hunk:N] ` markers from an enriched text. -/
def stripMarkers (s : Str) : Str :=
  joinNl ((splitLines s).map stripMarkerLine)

/-! ## Reference resolver (`src/stream.ts`, `resolveReference`)

The reference is matched against
`/^(.+):hunk:(\d+)(?:-(\d+))?(?::L(\d+)(?:-(\d+))?)?$/`.

After `:hunk:` every quantifier is effectively deterministic (maximal
munch): a `\d+` group is followed by `-`, `:` or the end, never by a digit,
and skipping an optional group whose first character is present always leads
to failure at `$`.  The only real backtracking is the greedy `(.+)` for the
path, which selects the last split point `path ++ ":hunk:" ++ suffix` whose
suffix matches (and whose path is non-empty and free of `'\n'`, since `.`
does not match a newline). -/

/-- Parse `(\d+)(?:-(\d+))?(?::L(\d+)(?:-(\d+))?)?$`, anchored at the end:
hunk start, optional hunk end, optional line range. -/
def matchSuffix (s : Str) : Option (Nat × Option Nat × Option (Nat × Option Nat)) :=
  let d1 := takeDigits s
  if d1 = [] then none
  else
    let r1 := s.drop d1.length
    let hunkEnd : Option Nat × Str :=
      match r1 with
      | '-' :: t =>
          let d2 := takeDigits t
          if d2 = [] then (none, r1) else (some (digitsToNat d2), t.drop d2.length)
      | _ => (none, r1)
    let lineRange : Option (Nat × Option Nat) × Str :=
      match hunkEnd.2 with
      | ':' :: 'L' :: t =>
          let d3 := takeDigits t
          if d3 = [] then (none, hunkEnd.2)
          else
            let r3 := t.drop d3.length
            match r3 with
            | '-' :: u =>
                let d4 := takeDigits u
                if d4 = [] then (some (digitsToNat d3, none), r3)
                else (some (digitsToNat d3, some (digitsToNat d4)), u.drop d4.length)
            | _ => (some (digitsToNat d3, none), r3)
      | _ => (none, hunkEnd.2)
    if lineRange.2 = [] then some (digitsToNat d1, hunkEnd.1, lineRange.1)
    else none

/-- Is `i` a viable split point for the greedy `(.+):hunk:` prefix? -/
def hunkSplitValid (ref : Str) (i : Nat) : Bool :=
  decide (1 ≤ i) && decide ('\n' ∉ ref.take i) &&
    ":hunk:".toList.isPrefixOf (ref.drop i) && (matchSuffix (ref.drop (i + 6))).isSome

/-- The match `ref.match(regex)`: `some (path, hunkStart, hunkEnd?, lineRange?)`, or
`none` when the reference does not have the hunk form. -/
def hunkMatch (ref : Str) : Option (Str × Nat × Option Nat × Option (Nat × Option Nat)) :=
  match (List.range (ref.length + 1)).reverse.find? (hunkSplitValid ref) with
  | some i =>
      match matchSuffix (ref.drop (i + 6)) with
      | some t => some (ref.take i, t)
      | none => none
  | none => none

/-- The collection loop `for (let i = startHunk; i <= endHunk; i++)`:
`cnt` remaining ordinals starting at `i`; `none` as soon as an ordinal has
no hunk (the early `return`). -/
def collectHunks (file : DiffFile) (i : Nat) : Nat → Option (List Hunk)
  | 0 => some []
  | cnt + 1 =>
      match file.hunks.find? (fun h => decide (h.index = i)) with
      | none => none
      | some h => (collectHunks file (i + 1) cnt).map (h :: ·)

/-- The `resolveReference({ref, diff})` function of `stream.ts`. -/
def resolveReference (ref : Str) (diff : ParsedDiff) : ResolvedReference :=
  match hunkMatch ref with
  | none =>
      -- fileOnly: the whole reference is used as the path
      match mapGet diff ref with
      | none => .not_found ref .file_not_in_diff
      | some file => .resolved ref file.hunks none
  | some (path, startHunk, hunkEndOpt, lineOpt) =>
      match mapGet diff path with
      | none => .not_found path .file_not_in_diff
      | some file =>
          let endHunk := hunkEndOpt.getD startHunk
          match collectHunks file startHunk (endHunk + 1 - startHunk) with
          | none => .not_found path .hunk_not_found
          | some hunks =>
              match lineOpt with
              | some (lineStart, lineEndOpt) =>
                  if hunks.length = 1 then
                    let lineEnd := lineEndOpt.getD lineStart
                    .resolved path hunks (some ⟨min lineStart lineEnd, max lineStart lineEnd⟩)
                  else .resolved path hunks none
              | none => .resolved path hunks none

/-! ## Rendering (`src/render.ts`) -/

def RESET : Str := "\x1b[0m".toList
def DIM : Str := "\x1b[2m".toList
def GREEN : Str := "\x1b[32m".toList
def RED : Str := "\x1b[31m".toList
def YELLOW : Str := "\x1b[33m".toList

def CONTEXT_LINES : Nat := 2

/-- Try `/@@ -(\d+)(?:,\d+)? \+(\d+)(?:,\d+)? @@/` at the start of `s`
(maximal munch is again equivalent to the regex's backtracking). -/
def headerMatchAt (s : Str) : Option (Nat × Nat) :=
  if "@@ -".toList.isPrefixOf s then
    let r0 := s.drop 4
    let d1 := takeDigits r0
    if d1 = [] then none
    else
      let r1 := r0.drop d1.length
      let r1 :=
        match r1 with
        | ',' :: t =>
            let d := takeDigits t
            if d = [] then r1 else t.drop d.length
        | _ => r1
      if " +".toList.isPrefixOf r1 then
        let r2 := r1.drop 2
        let d2 := takeDigits r2
        if d2 = [] then none
        else
          let r3 := r2.drop d2.length
          let r3 :=
            match r3 with
            | ',' :: t =>
                let d := takeDigits t
                if d = [] then r3 else t.drop d.length
            | _ => r3
          if " @@".toList.isPrefixOf r3 then some (digitsToNat d1, digitsToNat d2)
          else none
      else none
  else none

/-- The `parseHunkHeader` function of `render.ts`: first position where the header regex
matches; fallback `{oldStart: 0, newStart: 1}`. -/
def parseHunkHeader (header : Str) : Nat × Nat :=
  match (List.range (header.length + 1)).find? (fun i => (headerMatchAt (header.drop i)).isSome) with
  | some i => (headerMatchAt (header.drop i)).getD (0, 1)
  | none => (0, 1)

/-- The `countLines` function of `render.ts`: old count (delete + context) and new count
(add + context) of a run of diff lines, accumulated in loop order. -/
def countLines (lines : List DiffLine) : Nat × Nat :=
  lines.foldl
    (fun acc l =>
      ((if l.kind = .delete ∨ l.kind = .context then acc.1 + 1 else acc.1),
       (if l.kind = .add ∨ l.kind = .context then acc.2 + 1 else acc.2)))
    (0, 0)

/-- The `buildSliceHeader` function of `render.ts`. -/
def buildSliceHeader (hunk : Hunk) (sliceStart : Nat) (sliceLines : List DiffLine) : Str :=
  let original := parseHunkHeader hunk.header
  let skipped := countLines (hunk.lines.take sliceStart)
  let slice := countLines sliceLines
  let oldStart := original.1 + skipped.1
  let newStart := original.2 + skipped.2
  "@@ -".toList ++ natStr oldStart ++ ",".toList ++ natStr slice.1 ++
    " +".toList ++ natStr newStart ++ ",".toList ++ natStr slice.2 ++ " @@".toList

/-- The `sliceHunkLines` function of `render.ts`: clamp the 1-based range, widen by the
context margin, slice.  (`Math.max(0, start - 1 - CONTEXT_LINES)` is the
truncated `Nat` subtraction.) -/
def sliceHunkLines (hunk : Hunk) (lineRange : LineRange) : List DiffLine × Nat :=
  let total := hunk.lines.length
  let start := max 1 (min lineRange.start total)
  let stop := max start (min lineRange.stop total)
  let sliceStart := start - 1 - CONTEXT_LINES
  let sliceEnd := min total (stop + CONTEXT_LINES)
  ((hunk.lines.drop sliceStart).take (sliceEnd - sliceStart), sliceStart)

/-- The `renderDiffLines` function of `render.ts`. -/
def renderDiffLines (lines : List DiffLine) (raw : Bool) : List Str :=
  if raw then lines.map (fun l => kindChar l.kind ++ l.content)
  else
    lines.map (fun l =>
      match l.kind with
      | .add => "  ".toList ++ GREEN ++ "+".toList ++ l.content ++ RESET ++ "\n".toList
      | .delete => "  ".toList ++ RED ++ "-".toList ++ l.content ++ RESET ++ "\n".toList
      | .context => "  ".toList ++ DIM ++ " ".toList ++ l.content ++ RESET ++ "\n".toList)

/-- The `renderHunks` function of `render.ts` (the version with line-range support). -/
def renderHunks (hunks : List Hunk) (file : Str) (raw : Bool)
    (lineRange : Option LineRange) : Str :=
  match lineRange, hunks with
  | some lr, [hunk] =>
      -- partial hunk: line range on a single hunk
      let out := sliceHunkLines hunk lr
      let header := buildSliceHeader hunk out.2 out.1
      if raw then
        "\n```diff\n--- a/".toList ++ file ++ "\n+++ b/".toList ++ file ++ "\n".toList ++
          header ++ "\n".toList ++ joinNl (renderDiffLines out.1 raw) ++ "\n```\n".toList
      else
        ("\n  ".toList ++ DIM ++ "── ".toList ++ file ++ " ──".toList ++ RESET ++ "\n".toList) ++
          ("  ".toList ++ DIM ++ header ++ RESET ++ "\n".toList) ++
          (renderDiffLines out.1 raw).flatten
  | _, _ =>
      -- full hunk rendering
      if raw then
        let lines :=
          ("--- a/".toList ++ file) :: ("+++ b/".toList ++ file) ::
            (hunks.map (fun h => h.header :: h.lines.map
              (fun l => kindChar l.kind ++ l.content))).flatten
        "\n```diff\n".toList ++ joinNl lines ++ "\n```\n".toList
      else
        ("\n  ".toList ++ DIM ++ "── ".toList ++ file ++ " ──".toList ++ RESET ++ "\n".toList) ++
          (hunks.map (fun h =>
            ("  ".toList ++ DIM ++ h.header ++ RESET ++ "\n".toList) ++
              (renderDiffLines h.lines raw).flatten)).flatten

/-- The `renderReference` function of `render.ts`. -/
def renderReference (resolved : ResolvedReference) (raw : Bool) : Str :=
  match resolved with
  | .resolved file hunks lineRange => renderHunks hunks file raw lineRange
  | .not_found file reason =>
      let r :=
        match reason with
        | .file_not_in_diff => "file not in diff".toList
        | .hunk_not_found => "hunk not found".toList
      if raw then "\n> [warning: ".toList ++ file ++ " - ".toList ++ r ++ "]\n".toList
      else
        "\n  ".toList ++ YELLOW ++ "[warning: ".toList ++ file ++ " - ".toList ++ r ++
          "]".toList ++ RESET ++ "\n".toList
  | .malformed raw0 => "[[ref:".toList ++ raw0 ++ "]]".toList

/-! ## Paged block builder (`src/cli.ts`, `main`, paged mode)

The background task folds the token stream into a list of blocks, splitting
when non-whitespace text appears after a ref (contiguous refs stay
together).  The `render` closure of `main` maps a text token to its content
and a ref token through `resolveReference` and `renderReference`. -/

/-- The `render` closure of `main` in `cli.ts`. -/
def cliRender (diff : ParsedDiff) (raw : Bool) (t : StreamToken) : Str :=
  match t with
  | .text c => c
  | .ref c _ => renderReference (resolveReference c diff) raw

/-- The code points `String.prototype.trim` removes (ECMA-262 WhiteSpace and
LineTerminator). -/
def jsWhitespace : List Char :=
  ['\t', Char.ofNat 11, Char.ofNat 12, ' ', '\n', '\r', Char.ofNat 0x85,
   Char.ofNat 0xa0, Char.ofNat 0x1680, Char.ofNat 0x2000, Char.ofNat 0x2001,
   Char.ofNat 0x2002, Char.ofNat 0x2003, Char.ofNat 0x2004, Char.ofNat 0x2005,
   Char.ofNat 0x2006, Char.ofNat 0x2007, Char.ofNat 0x2008, Char.ofNat 0x2009,
   Char.ofNat 0x200a, Char.ofNat 0x2028, Char.ofNat 0x2029, Char.ofNat 0x202f,
   Char.ofNat 0x205f, Char.ofNat 0x3000, Char.ofNat 0xfeff]

/-- JavaScript `String.prototype.trim`. -/
def jsTrim (s : Str) : Str :=
  ((s.dropWhile (· ∈ jsWhitespace)).reverse.dropWhile (· ∈ jsWhitespace)).reverse

/-- The `Block` record of `cli.ts`: accumulated rendered content and the set of
referenced files (a JS `Set`: insertion order, no duplicates). -/
structure Block where
  content : Str
  files : List Str
  deriving DecidableEq, Repr

/-- JS `Set.prototype.add`. -/
def setAdd (s : List Str) (x : Str) : List Str :=
  if x ∈ s then s else s ++ [x]

/-- Apply `f` to the last element (`blocks[blocks.length - 1]`). -/
def updateLast (bs : List Block) (f : Block → Block) : List Block :=
  match bs with
  | [] => []
  | [b] => [f b]
  | b :: rest => b :: updateLast rest f

/-- One token of the background loop: the `sawRef` flag and the block list.
Split when non-whitespace text appears after a ref. -/
def blockStep (render : StreamToken → Str) (acc : List Block × Bool)
    (t : StreamToken) : List Block × Bool :=
  match t with
  | .ref _ file =>
      let bs := updateLast acc.1 (fun b => { b with files := setAdd b.files file })
      (updateLast bs (fun b => { b with content := b.content ++ render t }), true)
  | .text c =>
      if acc.2 ∧ jsTrim c ≠ [] then
        (updateLast (acc.1 ++ [⟨[], []⟩])
          (fun b => { b with content := b.content ++ render t }), false)
      else
        (updateLast acc.1 (fun b => { b with content := b.content ++ render t }), acc.2)

/-- The block list the paged mode builds from an ordered token sequence
(initial state: one empty block, `sawRef = false`). -/
def buildBlocks (render : StreamToken → Str) (tokens : List StreamToken) : List Block :=
  (tokens.foldl (blockStep render) ([⟨[], []⟩], false)).1

/-! ## Specification-side formulations and concrete fixtures -/

/-- Old-file line tally of a line run: removed + context (specification
formulation, for comparison with `countLines`). -/
def oldTally (ls : List DiffLine) : Nat :=
  ls.countP (fun l => decide (l.kind = .delete ∨ l.kind = .context))

/-- New-file line tally of a line run: added + context. -/
def newTally (ls : List DiffLine) : Nat :=
  ls.countP (fun l => decide (l.kind = .add ∨ l.kind = .context))

/-- The classification of one hunk-body line, written out as a standalone
rule: `+` adds (unless the line starts with `+++`), `-` removes (unless it
starts with `---`), a leading space or an empty line is context, anything
else contributes nothing. -/
def classifySpec (line : Str) : List DiffLine :=
  match line with
  | '+' :: rest => if "++".toList.isPrefixOf rest then [] else [⟨.add, rest⟩]
  | '-' :: rest => if "--".toList.isPrefixOf rest then [] else [⟨.delete, rest⟩]
  | ' ' :: rest => [⟨.context, rest⟩]
  | [] => [⟨.context, []⟩]
  | _ => []

/-- The first hunk of `exampleFile`. -/
def exampleHunk : Hunk :=
  ⟨1, "@@ -10,5 +10,8 @@".toList,
    [⟨.context, "a".toList⟩, ⟨.delete, "b".toList⟩, ⟨.add, "c".toList⟩,
     ⟨.add, "d".toList⟩, ⟨.context, "e".toList⟩]⟩

/-- A concrete file with exactly three hunks. -/
def exampleFile : DiffFile :=
  ⟨"foo.ts".toList,
    [exampleHunk,
     ⟨2, "@@ -30,2 +33,2 @@".toList,
       [⟨.context, "f".toList⟩, ⟨.add, "g".toList⟩]⟩,
     ⟨3, "@@ -50 +54 @@".toList, [⟨.delete, "h".toList⟩]⟩]⟩

/-- A concrete parsed diff: one file `foo.ts` with exactly three hunks. -/
def exampleDiff : ParsedDiff := [("foo.ts".toList, exampleFile)]

/-- An over-long unterminated candidate: the opening delimiter followed by
195 characters and no closing delimiter (201 characters in total). -/
def longCandidate : Str := REF_START ++ List.replicate 195 'a'

/-- The token sequence of the block-segmentation example:
`[ref A][ref B][text "  "][text "hello"][ref C][text "world"]`. -/
def segTokens : List StreamToken :=
  [.ref "a".toList "a".toList, .ref "b".toList "b".toList, .text "  ".toList,
   .text "hello".toList, .ref "c".toList "c".toList, .text "world".toList]

/-- A valid two-file unified diff; each file has exactly one hunk. -/
def rawTwoFiles : Str :=
  "diff --git a/a.ts b/a.ts\n@@ -1 +1 @@\n x\ndiff --git a/b.ts b/b.ts\n@@ -2 +2 @@\n y".toList

/-- A valid one-file unified diff whose hunk body contains an added line
whose content begins with `++` (so the raw line begins with `+++`). -/
def rawPlusGuard : Str :=
  "diff --git a/f b/f\n@@ -1 +1,2 @@\n x\n+++y".toList

/-! ## Lemmas about the embedded definitions -/

theorem countLines_foldl (ls : List DiffLine) (a b : Nat) :
    ls.foldl
      (fun acc l =>
        ((if l.kind = .delete ∨ l.kind = .context then acc.1 + 1 else acc.1),
         (if l.kind = .add ∨ l.kind = .context then acc.2 + 1 else acc.2)))
      (a, b) = (a + oldTally ls, b + newTally ls) := by
  induction ls generalizing a b with
  | nil => simp [oldTally, newTally]
  | cons l ls ih =>
      simp only [List.foldl_cons, ih, oldTally, newTally, List.countP_cons]
      cases h : l.kind <;> simp [h] <;> omega

theorem countLines_eq (ls : List DiffLine) :
    countLines ls = (oldTally ls, newTally ls) := by
  simpa using countLines_foldl ls 0 0

theorem parseStep_init_skip (l : Str)
    (h : ¬ "diff --git ".toList <+: l) :
    parseStep parseInit l = parseInit := by
  simp [parseStep, parseInit]
  exact h

theorem parseLines_init_skip (pre : List Str)
    (h : ∀ l ∈ pre, ¬ "diff --git ".toList <+: l) :
    pre.foldl parseStep parseInit = parseInit := by
  induction pre with
  | nil => rfl
  | cons l ls ih =>
      rw [List.foldl_cons, parseStep_init_skip l (h l (by simp))]
      exact ih (fun x hx => h x (by simp [hx]))

theorem collectHunks_missing (f : DiffFile) (cnt : Nat) : ∀ n i, n ≤ i → i < n + cnt →
    f.hunks.find? (fun h => decide (h.index = i)) = none →
    collectHunks f n cnt = none := by
  induction cnt with
  | zero => intro n i h1 h2 _; omega
  | succ cnt ih =>
      intro n i h1 h2 hf
      by_cases hni : i = n
      · subst hni
        simp [collectHunks, hf]
      · cases hfind : f.hunks.find? (fun h => decide (h.index = n)) with
        | none => simp [collectHunks, hfind]
        | some h =>
            simp [collectHunks, hfind, ih (n + 1) i (by omega) (by omega) hf]

theorem tokensText_cons (t : StreamToken) (ts : List StreamToken) :
    tokensText (t :: ts) = tokenText t ++ tokensText ts := by
  simp [tokensText]

theorem tokensText_append (a b : List StreamToken) :
    tokensText (a ++ b) = tokensText a ++ tokensText b := by
  simp [tokensText]

theorem strIndexOf_found (pat : Str) : ∀ (s : Str) (i : Nat),
    strIndexOf pat s = some i → pat <+: s.drop i := by
  intro s
  induction s with
  | nil =>
      intro i h
      by_cases hp : pat = []
      · subst hp
        simp [strIndexOf] at h
        subst h
        simp
      · simp [strIndexOf, hp] at h
  | cons c rest ih =>
      intro i h
      unfold strIndexOf at h
      split at h
      · cases h
        simpa using (by assumption : pat.isPrefixOf (c :: rest) = true)
      · obtain ⟨j, hj, rfl⟩ := Option.map_eq_some'.mp h
        simpa using ih j hj

theorem refEnd_idx_ge {b : Str} (hpre : REF_START <+: b) {j : Nat}
    (hj : REF_END <+: b.drop j) : 6 ≤ j := by
  obtain ⟨t, rfl⟩ := hpre
  obtain ⟨u, hu⟩ := hj
  by_contra hlt
  push_neg at hlt
  have e : REF_START = ['[', '[', 'r', 'e', 'f', ':'] := rfl
  have e2 : REF_END = [']', ']'] := rfl
  rw [e, e2] at hu
  interval_cases j <;> simp_all

theorem take_append_drop_len {α : Type} (x : List α) (k : Nat) :
    x.take k ++ x.drop (x.take k).length = x := by
  rw [List.length_take]
  rcases le_total k x.length with hk | hk
  · rw [Nat.min_eq_left hk]
    exact List.take_append_drop k x
  · rw [Nat.min_eq_right hk, List.drop_length, List.append_nil]
    exact List.take_of_length_le hk

/-- Unfolding equation: one iteration starting in candidate state. -/
theorem pushLoop_succ_true (fuel : Nat) (b : Str) (hb : b ≠ []) :
    pushLoop (fuel + 1) b true =
      ((refScan (pushLoop fuel) b).1, (refScan (pushLoop fuel) b).2) := by
  simp only [pushLoop]
  rw [if_neg hb]
  rfl

/-- Unfolding equation: one iteration in prose state with no opening
delimiter in the buffer. -/
theorem pushLoop_succ_none (fuel : Nat) (b : Str) (hb : b ≠ [])
    (hidx : strIndexOf REF_START b = none) :
    pushLoop (fuel + 1) b false =
      if 0 < b.length - (REF_START.length - 1) then
        ([.text (b.take (b.length - (REF_START.length - 1)))],
          b.drop (b.length - (REF_START.length - 1)), false)
      else ([], b, false) := by
  simp only [pushLoop]
  rw [if_neg hb, hidx]
  by_cases hsafe : 0 < b.length - (REF_START.length - 1)
  · simp only [if_pos hsafe]
    rfl
  · simp only [if_neg hsafe]
    rfl

/-- Unfolding equation: one iteration in prose state with the opening
delimiter found at `i`. -/
theorem pushLoop_succ_some (fuel : Nat) (b : Str) (i : Nat) (hb : b ≠ [])
    (hidx : strIndexOf REF_START b = some i) :
    pushLoop (fuel + 1) b false =
      ((if 0 < i then [StreamToken.text (b.take i)] else []) ++
          (refScan (pushLoop fuel) (b.drop i)).1,
        (refScan (pushLoop fuel) (b.drop i)).2) := by
  simp only [pushLoop]
  rw [if_neg hb, hidx]
  rfl

/-- Congruence: `refScan` only consults its continuation on strictly shorter buffers
(each continuation consumes at least the two closing-delimiter characters or
the six opening-delimiter characters). -/
theorem refScan_congr (rec1 rec2 : Str → Bool → List StreamToken × Str × Bool)
    (b1 : Str)
    (h : ∀ b2 : Str, b2.length < b1.length → rec1 b2 false = rec2 b2 false) :
    refScan rec1 b1 = refScan rec2 b1 := by
  cases hend : strIndexOf REF_END b1 with
  | some j =>
      obtain ⟨u, hu⟩ := strIndexOf_found _ _ _ hend
      have hlen : (b1.drop (j + REF_END.length)).length < b1.length := by
        have h2 : (b1.drop j).length = REF_END.length + u.length := by
          rw [← hu]
          simp
        have hRE : REF_END.length = 2 := rfl
        simp only [List.length_drop] at h2 ⊢
        rw [hRE] at h2 ⊢
        omega
      simp only [refScan, hend, h _ hlen]
  | none =>
      by_cases hbig : MAX_REF_LENGTH < b1.length
      · have hlen : (b1.drop REF_START.length).length < b1.length := by
          simp only [List.length_drop]
          have : REF_START.length = 6 := rfl
          simp only [MAX_REF_LENGTH] at hbig
          omega
        simp only [refScan, hend, if_pos hbig, h _ hlen]
      · simp only [refScan, hend, if_neg hbig]

/-- The fuel is irrelevant once it exceeds the buffer length: every loop
iteration that recurses consumes at least two characters, so the
`buffer.length + 1` fuel `pushChunk` supplies reproduces the unbounded JS
`while` loop. -/
theorem pushLoop_fuel_irrel : ∀ (n : Nat) (b : Str), b.length ≤ n →
    ∀ (r : Bool) (f1 f2 : Nat), b.length < f1 → b.length < f2 →
    pushLoop f1 b r = pushLoop f2 b r := by
  intro n
  induction n with
  | zero =>
      intro b hn r f1 f2 h1 h2
      have hb : b = [] := by
        cases b with
        | nil => rfl
        | cons c rest => simp at hn
      subst hb
      obtain ⟨g1, rfl⟩ : ∃ g, f1 = g + 1 := ⟨f1 - 1, by omega⟩
      obtain ⟨g2, rfl⟩ : ∃ g, f2 = g + 1 := ⟨f2 - 1, by omega⟩
      simp [pushLoop]
  | succ n ih =>
      intro b hn r f1 f2 h1 h2
      obtain ⟨g1, rfl⟩ : ∃ g, f1 = g + 1 := ⟨f1 - 1, by omega⟩
      obtain ⟨g2, rfl⟩ : ∃ g, f2 = g + 1 := ⟨f2 - 1, by omega⟩
      by_cases hb : b = []
      · subst hb
        simp [pushLoop]
      · have hcongr : ∀ b1 : Str, b1.length ≤ b.length →
            refScan (pushLoop g1) b1 = refScan (pushLoop g2) b1 := by
          intro b1 hb1
          refine refScan_congr _ _ b1 (fun b2 hlt => ?_)
          obtain ⟨e1, rfl⟩ : ∃ e, g1 = e + 1 := ⟨g1 - 1, by omega⟩
          obtain ⟨e2, rfl⟩ : ∃ e, g2 = e + 1 := ⟨g2 - 1, by omega⟩
          exact ih b2 (by omega) false (e1 + 1) (e2 + 1) (by omega) (by omega)
        cases r with
        | true =>
            rw [pushLoop_succ_true g1 b hb, pushLoop_succ_true g2 b hb,
              hcongr b le_rfl]
        | false =>
            cases hidx : strIndexOf REF_START b with
            | none =>
                rw [pushLoop_succ_none g1 b hb hidx, pushLoop_succ_none g2 b hb hidx]
            | some i =>
                rw [pushLoop_succ_some g1 b i hb hidx,
                  pushLoop_succ_some g2 b i hb hidx,
                  hcongr (b.drop i) (by simp [List.length_drop])]

/-- Conservation of `refScan`: given that the continuation conserves text,
the reconstituted emitted tokens followed by the leftover buffer are exactly
the scanned buffer, and a still-in-candidate leftover starts with the
opening delimiter. -/
theorem refScan_conserve (recur : Str → Bool → List StreamToken × Str × Bool)
    (hrec : ∀ b2 : Str,
      tokensText (recur b2 false).1 ++ (recur b2 false).2.1 = b2 ∧
      ((recur b2 false).2.2 = true → REF_START <+: (recur b2 false).2.1))
    (b1 : Str) (hpre1 : REF_START <+: b1) :
    tokensText (refScan recur b1).1 ++ (refScan recur b1).2.1 = b1 ∧
    ((refScan recur b1).2.2 = true → REF_START <+: (refScan recur b1).2.1) := by
  have hRS : REF_START.length = 6 := rfl
  have hRE : REF_END.length = 2 := rfl
  cases hend : strIndexOf REF_END b1 with
  | some j =>
      have hj : REF_END <+: b1.drop j := strIndexOf_found _ _ _ hend
      have hj6 : 6 ≤ j := refEnd_idx_ge hpre1 hj
      obtain ⟨t, ht⟩ := hpre1
      subst ht
      have hdrop6 : (REF_START ++ t).drop REF_START.length = t := List.drop_left _ _
      have hdropj : (REF_START ++ t).drop j = t.drop (j - REF_START.length) := by
        have h := @List.drop_append Char REF_START t (j - REF_START.length)
        rw [show REF_START.length + (j - REF_START.length) = j from by rw [hRS]; omega] at h
        exact h
      rw [hdropj] at hj
      obtain ⟨u, hu⟩ := hj
      have hdropj2 : (REF_START ++ t).drop (j + REF_END.length) = u := by
        have h := @List.drop_append Char REF_START t (j - REF_START.length + REF_END.length)
        rw [show REF_START.length + (j - REF_START.length + REF_END.length) =
              j + REF_END.length from by rw [hRS, hRE]; omega] at h
        rw [h, ← List.drop_drop, ← hu]
        exact List.drop_left REF_END u
      have hteq : t = t.take (j - REF_START.length) ++ (REF_END ++ u) := by
        rw [hu, List.take_append_drop]
      simp only [refScan, hend]
      constructor
      · rw [tokensText_cons]
        simp only [tokenText]
        rw [hdrop6, hdropj2]
        simp only [List.append_assoc]
        rw [(hrec u).1]
        conv_rhs => rw [hteq]
      · rw [hdropj2]
        exact (hrec u).2
  | none =>
      by_cases hlen : MAX_REF_LENGTH < b1.length
      · obtain ⟨t, ht⟩ := hpre1
        subst ht
        have hdrop6 : (REF_START ++ t).drop REF_START.length = t := List.drop_left _ _
        simp only [refScan, hend, if_pos hlen]
        constructor
        · rw [tokensText_cons]
          simp only [tokenText]
          rw [hdrop6]
          simp only [List.append_assoc]
          rw [(hrec t).1]
        · rw [hdrop6]
          exact (hrec t).2
      · simp only [refScan, hend, if_neg hlen]
        exact ⟨by simp [tokensText], fun _ => hpre1⟩

/-- Conservation of the scan loop, for any amount of fuel: the emitted
tokens (reconstituted) followed by the leftover buffer reproduce the input
buffer, and a leftover in candidate state starts with the opening
delimiter. -/
theorem pushLoop_conserve (fuel : Nat) : ∀ (b : Str) (r : Bool),
    (r = true → REF_START <+: b) →
    tokensText (pushLoop fuel b r).1 ++ (pushLoop fuel b r).2.1 = b ∧
    ((pushLoop fuel b r).2.2 = true → REF_START <+: (pushLoop fuel b r).2.1) := by
  induction fuel with
  | zero =>
      intro b r hr
      exact ⟨by simp [pushLoop, tokensText], hr⟩
  | succ fuel ih =>
      intro b r hr
      have hrec : ∀ b2 : Str,
          tokensText (pushLoop fuel b2 false).1 ++ (pushLoop fuel b2 false).2.1 = b2 ∧
          ((pushLoop fuel b2 false).2.2 = true →
            REF_START <+: (pushLoop fuel b2 false).2.1) :=
        fun b2 => ih b2 false (by simp)
      by_cases hb : b = []
      · subst hb
        exact ⟨by simp [pushLoop, tokensText], fun h => hr (by simpa [pushLoop] using h)⟩
      · cases r with
        | true =>
            rw [pushLoop_succ_true fuel b hb]
            exact refScan_conserve _ hrec b (hr rfl)
        | false =>
            cases hidx : strIndexOf REF_START b with
            | none =>
                rw [pushLoop_succ_none fuel b hb hidx]
                split_ifs with hsafe
                · exact ⟨by simp [tokensText, tokenText], by simp⟩
                · exact ⟨by simp [tokensText], by simp⟩
            | some i =>
                have hpre1 : REF_START <+: b.drop i := strIndexOf_found _ _ _ hidx
                have hscan := refScan_conserve _ hrec (b.drop i) hpre1
                rw [pushLoop_succ_some fuel b i hb hidx]
                constructor
                · rw [tokensText_append, List.append_assoc, hscan.1]
                  have hpretext :
                      tokensText (if 0 < i then [StreamToken.text (b.take i)] else []) =
                        b.take i := by
                    split_ifs with h0
                    · simp [tokensText, tokenText]
                    · have hz : i = 0 := by omega
                      subst hz
                      simp [tokensText]
                  rw [hpretext, List.take_append_drop]
                · exact hscan.2

/-- Conservation of a single `push` call, threading the prefix invariant of
the tokenizer state. -/
theorem pushChunk_conserve (st : ParserState) (chunk : Str)
    (hinv : st.inRef = true → REF_START <+: st.buffer) :
    tokensText (pushChunk st chunk).1 ++ (pushChunk st chunk).2.buffer =
      st.buffer ++ chunk ∧
    ((pushChunk st chunk).2.inRef = true →
      REF_START <+: (pushChunk st chunk).2.buffer) := by
  have hinv2 : st.inRef = true → REF_START <+: st.buffer ++ chunk :=
    fun h => (hinv h).trans (List.prefix_append _ _)
  exact pushLoop_conserve _ (st.buffer ++ chunk) st.inRef hinv2

/-- Conservation of a whole sequence of `push` calls. -/
theorem runPush_conserve (chunks : List Str) : ∀ st : ParserState,
    (st.inRef = true → REF_START <+: st.buffer) →
    tokensText (runPush chunks st).1 ++ (runPush chunks st).2.buffer =
      st.buffer ++ chunks.flatten ∧
    ((runPush chunks st).2.inRef = true →
      REF_START <+: (runPush chunks st).2.buffer) := by
  induction chunks with
  | nil => intro st hinv; exact ⟨by simp [runPush, tokensText], hinv⟩
  | cons c cs ih =>
      intro st hinv
      have h1 := pushChunk_conserve st c hinv
      have h2 := ih (pushChunk st c).2 h1.2
      constructor
      · simp only [runPush]
        rw [tokensText_append, List.append_assoc, h2.1, ← List.append_assoc, h1.1,
          List.flatten_cons, List.append_assoc]
      · simp only [runPush]
        exact h2.2

/-! ## Claim theorems -/

/-- Claim C1.  Chunk-boundary invariance: for every narration text and every
way of splitting it into chunks fed to successive `push` calls followed by
exactly one `flush`, concatenating the contents of all emitted tokens in
order — a reference token reconstituted as its bracketed literal
`[[ref:` + content + `]]` form — equals the original text, for any split
(the statement quantifies over the chunk list, so the text is
`chunks.flatten` and every split of a given text is covered). -/
theorem claim_C1_chunk_invariance (chunks : List Str) :
    tokensText (tokenizeAll chunks) = chunks.flatten := by
  have h := runPush_conserve chunks initState (by simp [initState])
  unfold tokenizeAll
  rw [tokensText_append]
  cases hbuf : (runPush chunks initState).2.buffer with
  | nil =>
      have h1 := h.1
      rw [hbuf, List.append_nil] at h1
      simp only [flushTokens, hbuf]
      simpa [tokensText, initState] using h1
  | cons c rest =>
      have h1 := h.1
      rw [hbuf] at h1
      simp only [flushTokens, hbuf]
      rw [if_neg (by simp)]
      simpa [tokensText, tokenText, initState] using h1

/-- Claim C4.  Abandonment of an unterminated candidate: in candidate state,
when the buffer (which starts with the opening delimiter) holds more than
`MAX_REF_LENGTH` characters and no closing delimiter, one loop iteration
emits exactly the opening delimiter's literal text as a prose token and
resumes normal (prose-state) scanning of the remaining buffered characters
after it. -/
theorem claim_C4_unterminated_bound (b : Str) (fuel : Nat)
    (hpre : REF_START <+: b)
    (hnone : strIndexOf REF_END b = none)
    (hlen : MAX_REF_LENGTH < b.length) :
    pushLoop (fuel + 1) b true =
      (StreamToken.text REF_START ::
          (pushLoop fuel (b.drop REF_START.length) false).1,
        (pushLoop fuel (b.drop REF_START.length) false).2) := by
  have hb : b ≠ [] := by
    intro hnil
    rw [hnil] at hlen
    simp [MAX_REF_LENGTH] at hlen
  rw [pushLoop_succ_true fuel b hb]
  simp only [refScan, hnone, if_pos hlen]

set_option maxRecDepth 40000 in
/-- Witness for C4: the opening delimiter followed by 195 characters with no
closing delimiter (201 characters total) is abandoned. -/
theorem claim_C4_witness :
    pushLoop 4 longCandidate true =
      (StreamToken.text REF_START ::
          (pushLoop 3 (longCandidate.drop REF_START.length) false).1,
        (pushLoop 3 (longCandidate.drop REF_START.length) false).2) :=
  claim_C4_unterminated_bound longCandidate 3 (by decide) (by decide) (by decide)

/-- Claim C2.  The reference text `foo.ts:line:9` does NOT resolve to the
malformed outcome: `resolveReference` treats any text without a matching
`:hunk:` suffix as a whole-file path, so the lookup misses and the result is
`not_found{file_not_in_diff}`, which the renderer turns into a warning line,
not the verbatim bracketed literal.  The renderer's `malformed` branch would
reproduce the literal, but the resolver never produces that value. -/
theorem claim_C2_malformed_resolution :
    resolveReference "foo.ts:line:9".toList exampleDiff =
      ResolvedReference.not_found "foo.ts:line:9".toList .file_not_in_diff ∧
    renderReference
        (resolveReference "foo.ts:line:9".toList exampleDiff) true ≠
      "[[ref:foo.ts:line:9]]".toList ∧
    renderReference (ResolvedReference.malformed "foo.ts:line:9".toList) true =
      "[[ref:foo.ts:line:9]]".toList := by
  refine ⟨by decide, by decide, by decide⟩

/-- Claim C3.  For every hunk and every requested line sub-range, the
synthesized slice header is exactly the range header whose old/new starting
numbers are the hunk's parsed starting numbers advanced by the removed+context
(resp. added+context) tallies of the lines skipped before the slice, and whose
declared old/new counts are those tallies of the sliced lines themselves —
including after the clamping `sliceHunkLines` performs on an out-of-bounds
range. -/
theorem claim_C3_header_arithmetic (h : Hunk) (r : LineRange) :
    buildSliceHeader h (sliceHunkLines h r).2 (sliceHunkLines h r).1 =
      "@@ -".toList ++
        natStr ((parseHunkHeader h.header).1 + oldTally (h.lines.take (sliceHunkLines h r).2)) ++
        ",".toList ++ natStr (oldTally (sliceHunkLines h r).1) ++
        " +".toList ++
        natStr ((parseHunkHeader h.header).2 + newTally (h.lines.take (sliceHunkLines h r).2)) ++
        ",".toList ++ natStr (newTally (sliceHunkLines h r).1) ++ " @@".toList := by
  simp [buildSliceHeader, countLines_eq]

/-- Claim C6.  Round-trip failure: parsing the valid two-file diff
`rawTwoFiles`, enriching and stripping the markers loses the only hunk of the
first file (the parser stores a file into the result on the next
`diff --git` line without first appending the pending hunk), so the
round-tripped text is missing the header `@@ -1 +1 @@` and the context line
of `a.ts`, instead of reproducing all original hunk content in order. -/
theorem claim_C6_roundtrip_drops_hunk :
    parseDiff rawTwoFiles =
      [("a.ts".toList, ⟨"a.ts".toList, []⟩),
       ("b.ts".toList,
        ⟨"b.ts".toList, [⟨1, "@@ -2 +2 @@".toList, [⟨.context, "y".toList⟩]⟩]⟩)] ∧
    stripMarkers (enrichDiff (parseDiff rawTwoFiles)) =
      "── a.ts ──\n\n── b.ts ──\n\n@@ -2 +2 @@\n y\n".toList ∧
    stripMarkers (enrichDiff (parseDiff rawTwoFiles)) ≠
      "── a.ts ──\n\n@@ -1 +1 @@\n x\n\n── b.ts ──\n\n@@ -2 +2 @@\n y\n".toList := by
  refine ⟨by decide, by decide, by decide⟩

/-- Claim C10.  The parser opens a file only on a `diff --git ` line and a
hunk only when a file is open: any input none of whose lines starts with
`diff --git ` (for example plain `diff -u` output with hunk headers and hunk
lines) parses to the empty index, and any run of such lines preceding the
rest of the input is silently dropped (the fold passes through them without
changing the state). -/
theorem claim_C10_requires_file_marker :
    (∀ raw : Str, (∀ l ∈ splitLines raw, ¬ "diff --git ".toList <+: l) →
      parseDiff raw = []) ∧
    (∀ pre rest : List Str, (∀ l ∈ pre, ¬ "diff --git ".toList <+: l) →
      (pre ++ rest).foldl parseStep parseInit = rest.foldl parseStep parseInit) := by
  constructor
  · intro raw h
    unfold parseDiff parseLines
    rw [parseLines_init_skip _ h]
    rfl
  · intro pre rest h
    rw [List.foldl_append, parseLines_init_skip _ h]

/-- Witness for C10: a `diff -u`-style input (hunk header and lines, no
`diff --git ` line) parses to the empty index, and prepending preamble lines
in front of a `diff --git ` file does not change the parse state. -/
theorem claim_C10_witness :
    parseDiff "@@ -1 +1 @@\n-old\n+new".toList = [] ∧
    (["index 123".toList, "--- a/f".toList] ++
        ["diff --git a/f b/f".toList, "@@ -1 +1 @@".toList, "+x".toList]).foldl
        parseStep parseInit =
      ["diff --git a/f b/f".toList, "@@ -1 +1 @@".toList, "+x".toList].foldl
        parseStep parseInit :=
  ⟨claim_C10_requires_file_marker.1 _ (by decide),
   claim_C10_requires_file_marker.2 _ _ (by decide)⟩

/-- Claim C5.  For every reference parsed into hunk-range form, over a file
present in the index, if some ordinal inside the inclusive requested range
has no hunk with that index in the file, resolution returns
`not_found{hunk_not_found}` (no partial hunk list). -/
theorem claim_C5_missing_hunk (ref path : Str) (n : Nat) (mo : Option Nat)
    (lo : Option (Nat × Option Nat)) (diff : ParsedDiff) (file : DiffFile)
    (hm : hunkMatch ref = some (path, n, mo, lo))
    (hf : mapGet diff path = some file)
    (hmiss : ∃ i, n ≤ i ∧ i ≤ mo.getD n ∧
      file.hunks.find? (fun h => decide (h.index = i)) = none) :
    resolveReference ref diff = .not_found path .hunk_not_found := by
  obtain ⟨i, h1, h2, hfind⟩ := hmiss
  unfold resolveReference
  rw [hm]
  dsimp only
  rw [hf]
  dsimp only
  rw [collectHunks_missing file (mo.getD n + 1 - n) n i h1 (by omega) hfind]

/-- Witness for C5: `foo.ts:hunk:5` against `exampleDiff`, whose `foo.ts`
has exactly the hunks 1, 2 and 3. -/
theorem claim_C5_witness :
    resolveReference "foo.ts:hunk:5".toList exampleDiff =
      .not_found "foo.ts".toList .hunk_not_found :=
  claim_C5_missing_hunk _ _ 5 none none exampleDiff exampleFile
    (by decide) (by decide) ⟨5, by decide, by decide, by decide⟩

/-- Claim C8, counterexample.  The hunk-body line `+++y` starts with `+`,
so by the claim it should become the added line `++y`; the parser's
file-header guard (`!line.startsWith('+++')`) drops it instead, so the
parsed hunk holds only the context line. -/
theorem claim_C8_counterexample :
    parseDiff rawPlusGuard =
      [("f".toList,
        ⟨"f".toList,
          [⟨1, "@@ -1 +1,2 @@".toList, [⟨.context, "x".toList⟩]⟩]⟩)] ∧
    [DiffLine.mk .context "x".toList] ≠
      [⟨.context, "x".toList⟩, ⟨.add, "++y".toList⟩] := by
  refine ⟨by decide, by decide⟩

/-- Claim C8 (amended).  Inside a hunk body (and for lines that are neither
file markers nor hunk headers), the parser appends exactly the
classification of the line: `+` becomes an added line with the byte stripped
unless the line starts with `+++`, `-` becomes a removed line unless the
line starts with `---`, a leading space or a truly empty line becomes a
context line, and any other line is ignored, with no other state change. -/
theorem claim_C8_line_classification (st : ParseState) (h : Hunk) (line : Str)
    (hh : st.currentHunk = some h)
    (h1 : ¬ "diff --git ".toList <+: line)
    (h2 : ¬ "@@".toList <+: line) :
    parseStep st line =
      { st with currentHunk := some ⟨h.index, h.header, h.lines ++ classifySpec line⟩ } := by
  obtain ⟨res, cfile, chunk, hidx⟩ := st
  simp only at hh
  subst hh
  simp only [parseStep]
  rw [if_neg (by simpa using h1), if_neg (by simp; intro hc; exact absurd hc h2)]
  match line with
  | [] => simp [classifySpec]
  | c :: rest =>
      by_cases hplus : c = '+'
      · subst hplus
        simp [classifySpec, List.isPrefixOf]
        split_ifs <;> simp
      · by_cases hminus : c = '-'
        · subst hminus
          simp [classifySpec, List.isPrefixOf]
          split_ifs <;> simp
        · by_cases hspace : c = ' '
          · subst hspace
            simp [classifySpec, List.isPrefixOf]
          · have hplus' : ¬ '+' = c := fun e => hplus e.symm
            have hminus' : ¬ '-' = c := fun e => hminus e.symm
            have hspace' : ¬ ' ' = c := fun e => hspace e.symm
            simp [classifySpec, List.isPrefixOf, hplus, hminus, hspace,
              hplus', hminus', hspace']

/-- Witness for the amended C8: a context line appended to an open hunk. -/
theorem claim_C8_witness :
    parseStep ⟨[], some ⟨"f".toList, []⟩, some ⟨1, "@@ -1 +1 @@".toList, []⟩, 1⟩
        " z".toList =
      ⟨[], some ⟨"f".toList, []⟩,
        some ⟨1, "@@ -1 +1 @@".toList, [⟨.context, "z".toList⟩]⟩, 1⟩ := by
  rw [claim_C8_line_classification _ ⟨1, "@@ -1 +1 @@".toList, []⟩ _ rfl
    (by decide) (by decide)]
  decide

/-- Claim C7, counterexample.  The token sequence
`[ref A][ref B][text "  "][text "hello"][ref C][text "world"]` yields THREE
blocks, not two: the whitespace-only text does not reset the `sawRef` flag,
so `"hello"` (substantive text after the refs) opens block 2 and lands in
it, and `"world"` (substantive text after ref C) opens block 3. -/
theorem claim_C7_counterexample :
    (buildBlocks (cliRender exampleDiff false) segTokens).length = 3 ∧
    (buildBlocks (cliRender exampleDiff false) segTokens).length ≠ 2 := by
  refine ⟨by decide, by decide⟩

/-- Claim C7 (amended).  For the example sequence, block segmentation yields
exactly three blocks: block 1 holds refs A and B plus the whitespace-only
text (whitespace-only text does not start a new block), block 2 holds the
text `hello` followed by ref C, and block 3 holds the text `world` — a new
block starts at each substantive text that follows one or more refs, and
that text belongs to the new block. -/
theorem claim_C7_block_segmentation (render : StreamToken → Str)
    (ca cb cc fa fb fc : Str) :
    buildBlocks render
        [.ref ca fa, .ref cb fb, .text "  ".toList, .text "hello".toList,
         .ref cc fc, .text "world".toList] =
      [⟨render (.ref ca fa) ++ render (.ref cb fb) ++ render (.text "  ".toList),
        setAdd (setAdd [] fa) fb⟩,
       ⟨render (.text "hello".toList) ++ render (.ref cc fc), setAdd [] fc⟩,
       ⟨render (.text "world".toList), []⟩] := by
  simp [buildBlocks, blockStep, updateLast, setAdd, jsTrim, jsWhitespace]

/-- Claim C9.  Slicing a hunk to a line sub-range: the requested 1-based
numbers are clamped into `[1, hunk.lines.length]`, the working range is
widened by the 2-line context margin on each side and clamped again to the
hunk's bounds (first conjunct: the returned slice start; second: the slice
covers exactly the clamped, widened window; third: the slice is a contiguous
sub-sequence of the hunk's lines, sitting at the returned offset).  And in
the resolver, an inverted requested line range (`Ly < Lx`) is normalized by
swapping the endpoints — the reference still resolves, it is not
rejected. -/
theorem claim_C9_slice_clamping :
    (∀ (h : Hunk) (r : LineRange),
      (sliceHunkLines h r).2 = max 1 (min r.start h.lines.length) - 1 - CONTEXT_LINES ∧
      (sliceHunkLines h r).2 + (sliceHunkLines h r).1.length =
        min h.lines.length
          (max (max 1 (min r.start h.lines.length)) (min r.stop h.lines.length) +
            CONTEXT_LINES) ∧
      h.lines.take (sliceHunkLines h r).2 ++ (sliceHunkLines h r).1 ++
        h.lines.drop ((sliceHunkLines h r).2 + (sliceHunkLines h r).1.length) =
        h.lines) ∧
    (∀ (ref path : Str) (n : Nat) (mo : Option Nat) (a b : Nat)
      (diff : ParsedDiff) (file : DiffFile) (hk : Hunk),
      hunkMatch ref = some (path, n, mo, some (a, some b)) →
      mapGet diff path = some file →
      collectHunks file n (mo.getD n + 1 - n) = some [hk] →
      resolveReference ref diff =
        .resolved path [hk] (some (if b < a then ⟨b, a⟩ else ⟨a, b⟩))) := by
  constructor
  · intro h r
    refine ⟨rfl, ?_, ?_⟩
    · simp only [sliceHunkLines, List.length_take, List.length_drop]
      omega
    · simp only [sliceHunkLines]
      rw [List.append_assoc, ← List.drop_drop, take_append_drop_len,
        List.take_append_drop]
  · intro ref path n mo a b diff file hk hm hf hc
    unfold resolveReference
    rw [hm]
    dsimp only
    rw [hf]
    dsimp only
    rw [hc]
    dsimp only
    rw [if_pos (by simp : ([hk].length = 1))]
    split_ifs with hab <;> simp [LineRange.mk.injEq] <;> omega

/-- Witness for C9: an out-of-bounds, inverted request `L9-2` on the 5-line
`exampleHunk`, and the inverted reference `foo.ts:hunk:1:L5-2` resolving
with the endpoints swapped. -/
theorem claim_C9_witness :
    ((sliceHunkLines exampleHunk ⟨9, 2⟩).2 +
        (sliceHunkLines exampleHunk ⟨9, 2⟩).1.length =
      min exampleHunk.lines.length
        (max (max 1 (min 9 exampleHunk.lines.length))
          (min 2 exampleHunk.lines.length) + CONTEXT_LINES)) ∧
    resolveReference "foo.ts:hunk:1:L5-2".toList exampleDiff =
      .resolved "foo.ts".toList [exampleHunk] (some ⟨2, 5⟩) := by
  constructor
  · exact (claim_C9_slice_clamping.1 exampleHunk ⟨9, 2⟩).2.1
  · have h2 := claim_C9_slice_clamping.2 "foo.ts:hunk:1:L5-2".toList
      "foo.ts".toList 1 none 5 2 exampleDiff exampleFile exampleHunk
      (by decide) (by decide) (by decide)
    rw [if_pos (by omega)] at h2
    exact h2

end Coreview
